import Mathlib

/-!
# Verification of the feature-based image-morphing core

Shallow embedding of the morphing engine of this repository
(src/Image.cpp together with the Vec2 / LineSegment headers).

Modelling conventions:

* C++ `double` arithmetic is modelled by exact real arithmetic (`ℝ`).
* Pixel bytes (`unsigned char`) are modelled as integers; a loaded image
  satisfies `Image.Valid` (every stored byte is defined and in [0,255]).
* IEEE division by zero yields a non-finite value (±inf or NaN).  In every
  code path of the distortion pipeline such a non-finite value propagates
  into the resulting sample location and produces implementation-defined
  output bytes.  We model each division whose denominator may be zero as a
  checked division `fdiv` returning `Option ℝ`, with `none` standing for
  the propagation of such a non-finite value; the per-pixel computation is
  then an `Option` pipeline, `none` meaning the C++ program produced an
  implementation-defined (garbage) byte at that pixel.
* C `pow` is modelled by `Real.rpow`; the two agree on the nonnegative
  bases arising under the preconditions of the theorems below.
-/

namespace ImageMorph

/-- 2D vector with real components (class Vec2 of Algebra3.hpp). -/
structure Vec2 where
  x : ℝ
  y : ℝ

/-- Componentwise addition (Vec2 operator+). -/
def Vec2.add (a b : Vec2) : Vec2 := ⟨a.x + b.x, a.y + b.y⟩

/-- Componentwise subtraction (Vec2 operator-). -/
def Vec2.sub (a b : Vec2) : Vec2 := ⟨a.x - b.x, a.y - b.y⟩

/-- Scalar multiplication (double * Vec2). -/
def Vec2.smul (d : ℝ) (a : Vec2) : Vec2 := ⟨d * a.x, d * a.y⟩

/-- Dot product (Vec2 operator* for two vectors). -/
def Vec2.dot (a b : Vec2) : ℝ := a.x * b.x + a.y * b.y

/-- Perpendicular of the same length, going counterclockwise (Vec2::perp). -/
def Vec2.perpv (a : Vec2) : Vec2 := ⟨-a.y, a.x⟩

/-- Squared length (Vec2::length2). -/
def Vec2.length2 (a : Vec2) : ℝ := a.x * a.x + a.y * a.y

/-- Length (Vec2::length), sqrt of the squared length. -/
noncomputable def Vec2.length (a : Vec2) : ℝ := Real.sqrt a.length2

/-- Checked real division: the C++ code divides unconditionally; a zero
denominator produces a non-finite IEEE value, modelled as `none`. -/
noncomputable def fdiv (x y : ℝ) : Option ℝ :=
  if y = 0 then none else some (x / y)

/-- Checked division of a Vec2 by a scalar (Vec2 operator/). -/
noncomputable def fdivV (a : Vec2) (y : ℝ) : Option Vec2 :=
  if y = 0 then none else some ⟨a.x / y, a.y / y⟩

/-- A line segment given by its start and end point (class LineSegment). -/
structure LineSegment where
  start : Vec2
  endpt : Vec2

/-- Unnormalized direction vector from start to end (LineSegment::direction). -/
def LineSegment.direction (L : LineSegment) : Vec2 := L.endpt.sub L.start

/-- Perpendicular of the direction (LineSegment::perp). -/
def LineSegment.perp (L : LineSegment) : Vec2 := L.direction.perpv

/-- Squared length of the segment (LineSegment::length2). -/
def LineSegment.length2 (L : LineSegment) : ℝ := (L.endpt.sub L.start).length2

/-- Length of the segment (LineSegment::length). -/
noncomputable def LineSegment.length (L : LineSegment) : ℝ := Real.sqrt L.length2

/-- Projection parameter of a point onto the line through the segment
(LineSegment::lineParameter); divides by the squared length. -/
noncomputable def LineSegment.lineParameter (L : LineSegment) (p : Vec2) : Option ℝ :=
  fdiv ((L.endpt.sub L.start).dot (p.sub L.start)) L.length2

/-- Signed distance of a point from the line through the segment
(LineSegment::signedLineDistance); divides by the length. -/
noncomputable def LineSegment.signedLineDistance (L : LineSegment) (p : Vec2) : Option ℝ :=
  fdiv ((p.sub L.start).dot L.perp) L.length

/-- Unsigned distance of a point from the finite segment, with the projection
parameter u and the signed line distance v already computed
(LineSegment::segmentDistance, three-argument overload). -/
noncomputable def LineSegment.segmentDistance (L : LineSegment) (p : Vec2) (u v : ℝ) : ℝ :=
  if u < 0 then (p.sub L.start).length
  else if u > 1 then (p.sub L.start).length
  else |v|

/-- Linear interpolation between the endpoints of two segments
(LineSegment::lerp): this segment at t = 0, the target at t = 1. -/
def LineSegment.lerp (L : LineSegment) (target : LineSegment) (t : ℝ) : LineSegment :=
  ⟨(Vec2.smul (1 - t) L.start).add (Vec2.smul t target.start),
   (Vec2.smul (1 - t) L.endpt).add (Vec2.smul t target.endpt)⟩

/-- A byte image: width, height, channel count, and the stored pixel bytes
(class Image).  `px row col channel` is the stored byte; `none` models an
implementation-defined byte (uninitialized or produced from a non-finite
sample location). -/
structure Image where
  w : ℕ
  h : ℕ
  nc : ℕ
  px : ℕ → ℕ → ℕ → Option ℤ

/-- A real byte buffer: within bounds every byte is defined and in [0,255]. -/
def Image.Valid (A : Image) : Prop :=
  ∀ r c k, r < A.h → c < A.w → k < A.nc →
    ∃ v, A.px r c k = some v ∧ 0 ≤ v ∧ v ≤ 255

/-- Image equality on the common grid: equal dimensions and equal stored
bytes at every in-bounds index. -/
def Image.EqOn (A B : Image) : Prop :=
  A.w = B.w ∧ A.h = B.h ∧ A.nc = B.nc ∧
  ∀ r c k, r < A.h → c < A.w → k < A.nc → A.px r c k = B.px r c k

/-- The sanitized lower lattice coordinate of sampleBilinear:
pc0 = max(0, min(col0, w-1)), and likewise for rows. -/
def sanitize0 (n : ℕ) (i : ℤ) : ℤ := max 0 (min i ((n : ℤ) - 1))

/-- The sanitized upper lattice coordinate of sampleBilinear:
pc1 = min(pc0 + 1, w-1), derived from the sanitized lower coordinate. -/
def sanitize1 (n : ℕ) (i : ℤ) : ℤ := min (sanitize0 n i + 1) ((n : ℤ) - 1)

/-- Bilinear sampling of an image at a real location (sampleBilinear of
src/Image.cpp): floor the coordinates, sanitize the four lattice
coordinates, fetch the four corner pixels, form the weighted sum, floor and
clamp to [0,255].  Channel slots at or beyond the channel count (up to 4)
are set to 0. -/
noncomputable def sampleBilinear (img : Image) (loc : Vec2) (k : ℕ) : Option ℤ :=
  let c0 : ℤ := ⌊loc.x⌋
  let c1 : ℤ := c0 + 1
  let r0 : ℤ := ⌊loc.y⌋
  let r1 : ℤ := r0 + 1
  let qc0 : ℤ := sanitize0 img.w c0
  let qc1 : ℤ := sanitize1 img.w c0
  let qr0 : ℤ := sanitize0 img.h r0
  let qr1 : ℤ := sanitize1 img.h r0
  if k < img.nc then
    (img.px qr0.toNat qc0.toNat k).bind fun p00 =>
    (img.px qr0.toNat qc1.toNat k).bind fun p01 =>
    (img.px qr1.toNat qc0.toNat k).bind fun p10 =>
    (img.px qr1.toNat qc1.toNat k).bind fun p11 =>
    some (min 255 (max 0
      ⌊(p00 : ℝ) * ((c1 : ℝ) - loc.x) * ((r1 : ℝ) - loc.y)
       + (p01 : ℝ) * ((c1 : ℝ) - loc.x) * (loc.y - (r0 : ℝ))
       + (p10 : ℝ) * (loc.x - (c0 : ℝ)) * ((r1 : ℝ) - loc.y)
       + (p11 : ℝ) * (loc.x - (c0 : ℝ)) * (loc.y - (r0 : ℝ))⌋))
  else if k < 4 then some 0 else none

/-- One iteration of the per-feature loop of distortImage: interpolate the
segment pair at time t, compute u and v against the interpolated segment,
map the pixel into the start segment's geometry, and weight the resulting
displacement.  Returns the weighted displacement together with the weight. -/
noncomputable def featureStep (t a b p : ℝ) (curr : Vec2)
    (sp : LineSegment × LineSegment) : Option (Vec2 × ℝ) :=
  let start_ln := sp.1
  let end_ln := start_ln.lerp sp.2 t
  (end_ln.lineParameter curr).bind fun u =>
  (end_ln.signedLineDistance curr).bind fun v =>
  (fdivV start_ln.perp start_ln.length).bind fun pl =>
  let interpolated := (start_ln.start.add (Vec2.smul u start_ln.direction)).add (Vec2.smul v pl)
  let dis := interpolated.sub curr
  (fdiv (Real.rpow start_ln.length p) (a + start_ln.segmentDistance curr u v)).bind fun q =>
  let wt := Real.rpow q b
  some (Vec2.smul wt dis, wt)

/-- The source location a destination pixel samples from in distortImage:
accumulate the weighted displacements and weights over all features, then
add the weighted average displacement to the pixel position. -/
noncomputable def distortPixelLoc (segs : List (LineSegment × LineSegment))
    (t a b p : ℝ) (curr : Vec2) : Option Vec2 :=
  (segs.foldlM (fun (acc : Vec2 × ℝ) sp =>
      (featureStep t a b p curr sp).map fun r => (acc.1.add r.1, acc.2 + r.2))
    (⟨⟨0, 0⟩, 0⟩ : Vec2 × ℝ)).bind fun acc =>
  (fdivV acc.1 acc.2).bind fun d =>
  some (curr.add d)

/-- distortImage of src/Image.cpp: a new image of the same dimensions where
every destination pixel (row, col) holds the bilinear sample of the input
image at the per-pixel source location.  The index-aligned segment arrays
are paired by position. -/
noncomputable def distortImage (img : Image) (segStart segEnd : List LineSegment)
    (t a b p : ℝ) : Image :=
  { w := img.w, h := img.h, nc := img.nc,
    px := fun r c k =>
      if r < img.h ∧ c < img.w ∧ k < img.nc then
        (distortPixelLoc (segStart.zip segEnd) t a b p ⟨(c : ℝ), (r : ℝ)⟩).bind fun loc =>
          sampleBilinear img loc k
      else none }

/-- blendImages of src/Image.cpp: per channel the floor of the convex
combination pixel1 * t + pixel2 * (1 - t), written without clamping. -/
noncomputable def blendImages (img1 img2 : Image) (t : ℝ) : Image :=
  { w := img1.w, h := img1.h, nc := img1.nc,
    px := fun r c k =>
      if r < img1.h ∧ c < img1.w ∧ k < img1.nc then
        (img1.px r c k).bind fun x =>
        (img2.px r c k).bind fun y =>
        some ⌊(x : ℝ) * t + (y : ℝ) * (1 - t)⌋
      else none }

/-- morphImages of src/Image.cpp: distort img1 forward with (seg1, seg2, t),
distort img2 with the segment roles swapped at complementary time 1 - t,
and blend the two results with weight 1 - t on the first. -/
noncomputable def morphImages (img1 img2 : Image)
    (seg1 seg2 : List LineSegment) (t a b p : ℝ) : Image :=
  blendImages (distortImage img1 seg1 seg2 t a b p)
              (distortImage img2 seg2 seg1 (1 - t) a b p)
              (1 - t)

/-- The per-feature weight as the specification words it: both the length
and the segment distance entering the weight are those of the
t-interpolated reference segment.  Stated from the spec, for comparison
with the weight actually computed by featureStep. -/
noncomputable def specFeatureWeight (s1 s2 : LineSegment) (t a b p : ℝ)
    (X : Vec2) : Option ℝ :=
  let R := s1.lerp s2 t
  (R.lineParameter X).bind fun u =>
  (R.signedLineDistance X).bind fun v =>
  (fdiv (Real.rpow R.length p) (a + R.segmentDistance X u v)).bind fun q =>
  some (Real.rpow q b)

/-- The independent clamp into [0, n-1] that the specification describes
for all four lattice coordinates of the bilinear sampler.  Stated from the
spec, for comparison with sanitize1. -/
def independentClamp (n : ℕ) (i : ℤ) : ℤ := max 0 (min i ((n : ℤ) - 1))

/-- A concrete 1x1 single-channel image whose only byte is 7. -/
def demoImg7 : Image :=
  ⟨1, 1, 1, fun r c k => if r < 1 ∧ c < 1 ∧ k < 1 then some 7 else none⟩

/-- A concrete 1x1 single-channel image whose only byte is 9. -/
def demoImg9 : Image :=
  ⟨1, 1, 1, fun r c k => if r < 1 ∧ c < 1 ∧ k < 1 then some 9 else none⟩

/-- A concrete 1x1 single-channel image whose only byte is 5. -/
def demoImg5 : Image :=
  ⟨1, 1, 1, fun r c k => if r < 1 ∧ c < 1 ∧ k < 1 then some 5 else none⟩

/-- A concrete 2x2 single-channel image: column 0 stores 0, column 1
stores 200. -/
def demoImg2x2 : Image :=
  ⟨2, 2, 1, fun r c k =>
    if r < 2 ∧ c < 2 ∧ k < 1 then (if c = 0 then some 0 else some 200) else none⟩

/-- The degenerate zero-length segment at the origin. -/
def degSeg : LineSegment := ⟨⟨0, 0⟩, ⟨0, 0⟩⟩

/-- A concrete start segment of length 1 for comparing the code's weight
with the specification's weight. -/
def csStart : LineSegment := ⟨⟨0, 0⟩, ⟨1, 0⟩⟩

/-- A concrete end segment of length 3; its midpoint interpolation with
csStart has length 2. -/
def csEnd : LineSegment := ⟨⟨0, 0⟩, ⟨3, 0⟩⟩

/-! ## Basic lemmas -/

lemma Vec2.length2_nonneg (a : Vec2) : 0 ≤ a.length2 := by
  unfold Vec2.length2
  exact add_nonneg (mul_self_nonneg _) (mul_self_nonneg _)

lemma Vec2.length_nonneg (a : Vec2) : 0 ≤ a.length :=
  Real.sqrt_nonneg _

lemma LineSegment.seg_length2_nonneg (L : LineSegment) : 0 ≤ L.length2 :=
  Vec2.length2_nonneg _

lemma LineSegment.length_pos (L : LineSegment) (h : L.length2 ≠ 0) : 0 < L.length :=
  Real.sqrt_pos.mpr (lt_of_le_of_ne L.seg_length2_nonneg (Ne.symm h))

lemma LineSegment.length_ne_zero (L : LineSegment) (h : L.length2 ≠ 0) : L.length ≠ 0 :=
  ne_of_gt (L.length_pos h)

lemma LineSegment.mul_self_length (L : LineSegment) : L.length * L.length = L.length2 :=
  Real.mul_self_sqrt L.seg_length2_nonneg

lemma LineSegment.segmentDistance_nonneg (L : LineSegment) (p : Vec2) (u v : ℝ) :
    0 ≤ L.segmentDistance p u v := by
  unfold LineSegment.segmentDistance
  split
  · exact Vec2.length_nonneg _
  · split
    · exact Vec2.length_nonneg _
    · exact abs_nonneg _

/-! ## Claim theorems -/

/-- C10: segmentDistance with precomputed u, v returns the Euclidean
distance from the point to the start endpoint whenever u < 0 or u > 1, and
the absolute signed line distance otherwise — both out-of-range projection
cases yield distance-to-start. -/
theorem segmentDistance_distance_to_start (L : LineSegment) (X : Vec2) (u v : ℝ)
    (hL : L.length2 ≠ 0)
    (hu : L.lineParameter X = some u) (hv : L.signedLineDistance X = some v) :
    ((u < 0 ∨ 1 < u) → L.segmentDistance X u v = (X.sub L.start).length) ∧
    (0 ≤ u → u ≤ 1 → L.segmentDistance X u v = |v|) := by
  constructor
  · intro h
    unfold LineSegment.segmentDistance
    rcases h with h | h
    · rw [if_pos h]
    · rw [if_neg (by linarith), if_pos h]
  · intro h0 h1
    unfold LineSegment.segmentDistance
    rw [if_neg (not_lt.mpr h0), if_neg (not_lt.mpr h1)]

/-- Witness for C10 at the unit horizontal segment and the point (3,0),
whose projection parameter u = 3 exceeds 1. -/
theorem segmentDistance_distance_to_start_witness :
    (⟨⟨0, 0⟩, ⟨1, 0⟩⟩ : LineSegment).segmentDistance ⟨3, 0⟩ 3 0
      = ((⟨3, 0⟩ : Vec2).sub ⟨0, 0⟩).length := by
  have hL2 : (⟨⟨0, 0⟩, ⟨1, 0⟩⟩ : LineSegment).length2 = 1 := by
    simp [LineSegment.length2, Vec2.sub, Vec2.length2]
  have h := segmentDistance_distance_to_start ⟨⟨0, 0⟩, ⟨1, 0⟩⟩ ⟨3, 0⟩ 3 0
    (by rw [hL2]; norm_num)
    (by simp [LineSegment.lineParameter, fdiv, hL2, Vec2.sub, Vec2.dot])
    (by simp [LineSegment.signedLineDistance, fdiv, LineSegment.length, hL2,
          LineSegment.perp, LineSegment.direction, Vec2.perpv, Vec2.sub, Vec2.dot])
  exact h.1 (Or.inr (by norm_num))

/-- C4 counterexample: the upper column coordinate is not the independent
clamp of col1 = col0 + 1.  At x = -2 on a width-2 image the code fetches
column 1 (sanitize1 = 1), while independently clamping col1 into [0, w-1]
as the claim states would fetch column 0. -/
theorem sanitize1_ne_independentClamp :
    sanitize1 2 ⌊(-2 : ℝ)⌋ = 1 ∧ independentClamp 2 (⌊(-2 : ℝ)⌋ + 1) = 0 := by
  have hfl : ⌊(-2 : ℝ)⌋ = -2 := by
    rw [show ((-2 : ℝ)) = ((-2 : ℤ) : ℝ) by norm_num, Int.floor_intCast]
  rw [hfl]
  constructor <;> simp [sanitize1, sanitize0, independentClamp]

/-- C4 amended: col0 and row0 are clamped into range, but col1 and row1 are
derived as min(clamped + 1, n - 1) from the already-clamped lower
coordinate.  Consequently for every x < -1 with w ≥ 2 the two fetched
columns are 0 and 1 — the boundary sample is not duplicated, contrary to
the claim's stated consequence. -/
theorem sampler_columns_left_of_range (w : ℕ) (x : ℝ) (hx : x < -1) (hw : 2 ≤ w) :
    sanitize0 w ⌊x⌋ = 0 ∧ sanitize1 w ⌊x⌋ = 1 ∧
    sanitize1 w ⌊x⌋ ≠ independentClamp w (⌊x⌋ + 1) := by
  have hfl : ⌊x⌋ ≤ -2 := by
    have h1 : (⌊x⌋ : ℝ) < -1 := lt_of_le_of_lt (Int.floor_le x) hx
    have h2 : ⌊x⌋ < -1 := by exact_mod_cast h1
    omega
  have hwz : (2 : ℤ) ≤ (w : ℤ) := by exact_mod_cast hw
  unfold sanitize1 sanitize0 independentClamp
  omega

/-- Witness for C4's amended claim at x = -2, w = 2. -/
theorem sampler_columns_left_of_range_witness :
    sanitize0 2 ⌊(-2 : ℝ)⌋ = 0 ∧ sanitize1 2 ⌊(-2 : ℝ)⌋ = 1 ∧
    sanitize1 2 ⌊(-2 : ℝ)⌋ ≠ independentClamp 2 (⌊(-2 : ℝ)⌋ + 1) :=
  sampler_columns_left_of_range 2 (-2) (by norm_num) (by norm_num)

/-- C8: morph is exactly the blend, with weight 1 - t on the first warped
image, of the forward distortion of image1 under (seg1, seg2, t) and the
distortion of image2 with the segment roles swapped at complementary time
1 - t. -/
theorem morphImages_is_blend_of_distortions (img1 img2 : Image)
    (seg1 seg2 : List LineSegment) (t a b p : ℝ) :
    morphImages img1 img2 seg1 seg2 t a b p
      = blendImages (distortImage img1 seg1 seg2 t a b p)
                    (distortImage img2 seg2 seg1 (1 - t) a b p)
                    (1 - t) := rfl

lemma featureStep_degSeg (t a b p : ℝ) (X : Vec2) :
    featureStep t a b p X (degSeg, degSeg) = none := by
  have hlen2 : (degSeg.lerp degSeg t).length2 = 0 := by
    norm_num [degSeg, LineSegment.lerp, LineSegment.length2, Vec2.smul, Vec2.add,
      Vec2.sub, Vec2.length2]
  unfold featureStep LineSegment.lineParameter
  simp [hlen2, fdiv]

/-- C2: with an empty feature array the code computes (0,0)/0 for the
displacement — an IEEE NaN — instead of falling back to the identity;
the resulting pixel is implementation-defined, not the input pixel. -/
theorem distort_empty_segments_poisons_pixel :
    (distortImage demoImg7 [] [] (1 / 2) (1 / 2) 1 (1 / 5)).px 0 0 0 = none ∧
    demoImg7.px 0 0 0 = some 7 := by
  constructor
  · simp [distortImage, distortPixelLoc, fdivV, demoImg7]
  · simp [demoImg7]

/-- C3: a zero-length feature segment makes lineParameter divide by zero;
the NaN propagates through the whole per-pixel accumulation and the output
pixel is implementation-defined — the degenerate feature is not excluded
from the blend. -/
theorem distort_degenerate_segment_poisons_pixel :
    (distortImage demoImg9 [degSeg] [degSeg] (1 / 2) (1 / 2) 1 (1 / 5)).px 0 0 0 = none ∧
    demoImg9.px 0 0 0 = some 9 := by
  constructor
  · simp [distortImage, distortPixelLoc, featureStep_degSeg, demoImg9]
  · simp [demoImg9]

/-- C6 counterexample: with the degenerate one-segment array used as both
start and end features, the warp is not the identity — the only pixel of
the result is implementation-defined while the input pixel is 5. -/
theorem distort_same_segs_not_always_identity :
    ¬ (distortImage demoImg5 [degSeg] [degSeg] (1 / 3) (1 / 2) 1 (1 / 5)).EqOn demoImg5 := by
  intro h
  have h000 := h.2.2.2 0 0 0
  simp [distortImage, demoImg5, distortPixelLoc, featureStep_degSeg] at h000

lemma featureStep_weight_formula (s1 s2 : LineSegment) (t a b p : ℝ)
    (X : Vec2) (u v : ℝ)
    (hu : (s1.lerp s2 t).lineParameter X = some u)
    (hv : (s1.lerp s2 t).signedLineDistance X = some v)
    (hlen : s1.length ≠ 0)
    (hden : a + s1.segmentDistance X u v ≠ 0) :
    (featureStep t a b p X (s1, s2)).map Prod.snd
      = some (Real.rpow (Real.rpow s1.length p / (a + s1.segmentDistance X u v)) b) := by
  unfold featureStep
  simp [hu, hv, fdivV, fdiv, hlen, hden]

/-- C1 amended: the weight the code accumulates for a feature uses the
length and the segment distance of the original start segment, while u and
v come from the t-interpolated segment. -/
theorem featureStep_weight_uses_start_segment (s1 s2 : LineSegment) (t a b p : ℝ)
    (X : Vec2) (u v : ℝ)
    (hu : (s1.lerp s2 t).lineParameter X = some u)
    (hv : (s1.lerp s2 t).signedLineDistance X = some v)
    (hlen : s1.length ≠ 0)
    (hden : a + s1.segmentDistance X u v ≠ 0) :
    (featureStep t a b p X (s1, s2)).map Prod.snd
      = some (Real.rpow (Real.rpow s1.length p / (a + s1.segmentDistance X u v)) b) :=
  featureStep_weight_formula s1 s2 t a b p X u v hu hv hlen hden

/-- Witness for C1's amended claim at the concrete feature pair
(csStart, csEnd) at t = 1/2 and the pixel (0,0). -/
theorem featureStep_weight_uses_start_segment_witness :
    (featureStep (1 / 2) 1 1 1 ⟨0, 0⟩ (csStart, csEnd)).map Prod.snd
      = some (Real.rpow (Real.rpow csStart.length 1
          / (1 + csStart.segmentDistance ⟨0, 0⟩ 0 0)) 1) := by
  have hlen2 : (csStart.lerp csEnd (1 / 2)).length2 = 4 := by
    norm_num [csStart, csEnd, LineSegment.lerp, LineSegment.length2, Vec2.smul,
      Vec2.add, Vec2.sub, Vec2.length2]
  have hlenS : csStart.length = 1 := by
    norm_num [csStart, LineSegment.length, LineSegment.length2, Vec2.sub, Vec2.length2,
      Real.sqrt_one]
  refine featureStep_weight_uses_start_segment csStart csEnd (1 / 2) 1 1 1 ⟨0, 0⟩ 0 0 ?_ ?_ ?_ ?_
  · unfold LineSegment.lineParameter
    rw [hlen2]
    norm_num [csStart, csEnd, LineSegment.lerp, fdiv, Vec2.smul, Vec2.add, Vec2.sub, Vec2.dot]
  · unfold LineSegment.signedLineDistance
    have hlpos : (0 : ℝ) < (csStart.lerp csEnd (1 / 2)).length :=
      LineSegment.length_pos _ (by rw [hlen2]; norm_num)
    unfold fdiv
    rw [if_neg (ne_of_gt hlpos)]
    norm_num [csStart, csEnd, LineSegment.lerp, LineSegment.perp, LineSegment.direction,
      Vec2.perpv, Vec2.smul, Vec2.add, Vec2.sub, Vec2.dot]
  · rw [hlenS]; norm_num
  · have : csStart.segmentDistance ⟨0, 0⟩ 0 0 = 0 := by
      unfold LineSegment.segmentDistance
      norm_num
    rw [this]; norm_num

/-- C1 counterexample: at the concrete feature pair (csStart, csEnd) at
t = 1/2, pixel (0,0), a = b = p = 1, the code accumulates weight 1 (from
the start segment of length 1) while the claimed formula over the
t-interpolated reference segment (length 2) gives weight 2. -/
theorem featureStep_weight_ne_spec_weight :
    (featureStep (1 / 2) 1 1 1 ⟨0, 0⟩ (csStart, csEnd)).map Prod.snd = some 1 ∧
    specFeatureWeight csStart csEnd (1 / 2) 1 1 1 ⟨0, 0⟩ = some 2 := by
  have hlen2 : (csStart.lerp csEnd (1 / 2)).length2 = 4 := by
    norm_num [csStart, csEnd, LineSegment.lerp, LineSegment.length2, Vec2.smul,
      Vec2.add, Vec2.sub, Vec2.length2]
  have hlenR : (csStart.lerp csEnd (1 / 2)).length = 2 := by
    unfold LineSegment.length
    rw [hlen2, show (4 : ℝ) = 2 ^ 2 by norm_num, Real.sqrt_sq (by norm_num : (0 : ℝ) ≤ 2)]
  have hlenS : csStart.length = 1 := by
    norm_num [csStart, LineSegment.length, LineSegment.length2, Vec2.sub, Vec2.length2,
      Real.sqrt_one]
  have hu : (csStart.lerp csEnd (1 / 2)).lineParameter ⟨0, 0⟩ = some 0 := by
    unfold LineSegment.lineParameter
    rw [hlen2]
    norm_num [csStart, csEnd, LineSegment.lerp, fdiv, Vec2.smul, Vec2.add, Vec2.sub, Vec2.dot]
  have hv : (csStart.lerp csEnd (1 / 2)).signedLineDistance ⟨0, 0⟩ = some 0 := by
    unfold LineSegment.signedLineDistance
    unfold fdiv
    rw [if_neg (by rw [hlenR]; norm_num)]
    norm_num [csStart, csEnd, LineSegment.lerp, LineSegment.perp, LineSegment.direction,
      Vec2.perpv, Vec2.smul, Vec2.add, Vec2.sub, Vec2.dot]
  have hdistS : csStart.segmentDistance ⟨0, 0⟩ 0 0 = 0 := by
    unfold LineSegment.segmentDistance; norm_num
  have hdistR : (csStart.lerp csEnd (1 / 2)).segmentDistance ⟨0, 0⟩ 0 0 = 0 := by
    unfold LineSegment.segmentDistance; norm_num
  constructor
  · rw [featureStep_weight_formula csStart csEnd (1 / 2) 1 1 1 ⟨0, 0⟩ 0 0 hu hv
      (by rw [hlenS]; norm_num) (by rw [hdistS]; norm_num)]
    rw [hlenS, hdistS]
    norm_num [Real.rpow_one]
  · simp only [specFeatureWeight, hu, hv, Option.some_bind]
    rw [hdistR, hlenR]
    norm_num [fdiv, Real.rpow_one]

lemma sanitize0_nonneg (n : ℕ) (i : ℤ) : 0 ≤ sanitize0 n i := by
  unfold sanitize0; omega

lemma sanitize0_le (n : ℕ) (i : ℤ) (hn : 1 ≤ n) : sanitize0 n i ≤ (n : ℤ) - 1 := by
  unfold sanitize0; omega

lemma sanitize1_nonneg (n : ℕ) (i : ℤ) (hn : 1 ≤ n) : 0 ≤ sanitize1 n i := by
  unfold sanitize1 sanitize0; omega

lemma sanitize1_le (n : ℕ) (i : ℤ) : sanitize1 n i ≤ (n : ℤ) - 1 := by
  unfold sanitize1; omega

lemma sanitize0_toNat_lt (n : ℕ) (i : ℤ) (hn : 1 ≤ n) : (sanitize0 n i).toNat < n := by
  have h1 := sanitize0_nonneg n i
  have h2 := sanitize0_le n i hn
  omega

lemma sanitize1_toNat_lt (n : ℕ) (i : ℤ) (hn : 1 ≤ n) : (sanitize1 n i).toNat < n := by
  have h1 := sanitize1_nonneg n i hn
  have h2 := sanitize1_le n i
  omega

lemma sanitize0_eq_self (n : ℕ) (i : ℤ) (h0 : 0 ≤ i) (h1 : i < (n : ℤ)) :
    sanitize0 n i = i := by
  unfold sanitize0; omega

lemma demoImg7_valid : demoImg7.Valid := by
  intro r c k hr hc hk
  have hr' : r < 1 := hr
  have hc' : c < 1 := hc
  have hk' : k < 1 := hk
  exact ⟨7, by simp [demoImg7]; omega, by norm_num, by norm_num⟩

lemma demoImg2x2_valid : demoImg2x2.Valid := by
  intro r c k hr hc hk
  have hr' : r < 2 := hr
  have hc' : c < 2 := hc
  have hk' : k < 1 := hk
  refine ⟨if c = 0 then 0 else 200, ?_, ?_, ?_⟩
  · simp only [demoImg2x2]
    rw [if_pos ⟨hr', hc', hk'⟩]
    split <;> rfl
  · split <;> norm_num
  · split <;> norm_num

/-- Sampling at exactly integer coordinates, however far out of range:
the corner weights degenerate to 1,0,0,0 and the sample is exactly the
stored byte of the pixel at the clamped lattice position. -/
lemma sampleBilinear_int (img : Image) (hval : img.Valid) (hw : 1 ≤ img.w)
    (hh : 1 ≤ img.h) (ix iy : ℤ) (k : ℕ) (hk : k < img.nc) :
    sampleBilinear img ⟨(ix : ℝ), (iy : ℝ)⟩ k
      = img.px (sanitize0 img.h iy).toNat (sanitize0 img.w ix).toNat k := by
  obtain ⟨v00, h00, h00l, h00u⟩ := hval (sanitize0 img.h iy).toNat (sanitize0 img.w ix).toNat k
    (sanitize0_toNat_lt _ _ hh) (sanitize0_toNat_lt _ _ hw) hk
  obtain ⟨v01, h01, _, _⟩ := hval (sanitize0 img.h iy).toNat (sanitize1 img.w ix).toNat k
    (sanitize0_toNat_lt _ _ hh) (sanitize1_toNat_lt _ _ hw) hk
  obtain ⟨v10, h10, _, _⟩ := hval (sanitize1 img.h iy).toNat (sanitize0 img.w ix).toNat k
    (sanitize1_toNat_lt _ _ hh) (sanitize0_toNat_lt _ _ hw) hk
  obtain ⟨v11, h11, _, _⟩ := hval (sanitize1 img.h iy).toNat (sanitize1 img.w ix).toNat k
    (sanitize1_toNat_lt _ _ hh) (sanitize1_toNat_lt _ _ hw) hk
  simp only [sampleBilinear, Int.floor_intCast]
  rw [if_pos hk, h00, h01, h10, h11]
  simp only [Option.some_bind]
  have hval00 : (v00 : ℝ) * (((ix + 1 : ℤ) : ℝ) - (ix : ℝ)) * (((iy + 1 : ℤ) : ℝ) - (iy : ℝ))
      + (v01 : ℝ) * (((ix + 1 : ℤ) : ℝ) - (ix : ℝ)) * ((iy : ℝ) - ((iy : ℤ) : ℝ))
      + (v10 : ℝ) * ((ix : ℝ) - ((ix : ℤ) : ℝ)) * (((iy + 1 : ℤ) : ℝ) - (iy : ℝ))
      + (v11 : ℝ) * ((ix : ℝ) - ((ix : ℤ) : ℝ)) * ((iy : ℝ) - ((iy : ℤ) : ℝ))
      = (v00 : ℝ) := by
    push_cast
    ring
  rw [hval00, Int.floor_intCast, max_eq_right h00l, min_eq_right h00u]

/-- C9: sampling at in-range integer coordinates returns exactly the
stored bytes of pixel (y, x) in the channel slots below the channel count,
and 0 in the remaining slots up to 4. -/
theorem sampleBilinear_integer_exact (img : Image) (hval : img.Valid)
    (cx cy : ℕ) (hcx : cx < img.w) (hcy : cy < img.h) (k : ℕ) (hk4 : k < 4) :
    sampleBilinear img ⟨(cx : ℝ), (cy : ℝ)⟩ k
      = if k < img.nc then img.px cy cx k else some 0 := by
  by_cases hk : k < img.nc
  · rw [if_pos hk]
    have h := sampleBilinear_int img hval (Nat.one_le_iff_ne_zero.mpr (by omega))
      (Nat.one_le_iff_ne_zero.mpr (by omega)) (cx : ℤ) (cy : ℤ) k hk
    rw [sanitize0_eq_self img.w (cx : ℤ) (by omega) (by exact_mod_cast hcx),
        sanitize0_eq_self img.h (cy : ℤ) (by omega) (by exact_mod_cast hcy),
        Int.toNat_natCast, Int.toNat_natCast] at h
    rw [show ((cx : ℤ) : ℝ) = (cx : ℝ) by push_cast; rfl,
        show ((cy : ℤ) : ℝ) = (cy : ℝ) by push_cast; rfl] at h
    exact h
  · rw [if_neg hk]
    simp only [sampleBilinear]
    rw [if_neg hk, if_pos hk4]

/-- Witness for C9 on the 1x1 image with byte 7, sampled at (0,0). -/
theorem sampleBilinear_integer_exact_witness :
    sampleBilinear demoImg7 ⟨0, 0⟩ 0
      = if 0 < demoImg7.nc then demoImg7.px 0 0 0 else some 0 := by
  have h := sampleBilinear_integer_exact demoImg7 demoImg7_valid
    0 0 (by norm_num [demoImg7]) (by norm_num [demoImg7]) 0 (by norm_num)
  simpa using h

/-- C5 amended: the four sanitized lattice coordinates lie in
[0, w-1] x [0, h-1] for every input coordinate, so the sampler never reads
outside the buffer; and at integer coordinates, however far out of range,
the sample resolves to the stored byte of the clamped border pixel. -/
theorem sampleBilinear_reads_in_bounds (img : Image) (hval : img.Valid)
    (hw : 1 ≤ img.w) (hh : 1 ≤ img.h) (loc : Vec2) (ix iy : ℤ) (k : ℕ)
    (hk : k < img.nc) :
    (0 ≤ sanitize0 img.w ⌊loc.x⌋ ∧ sanitize0 img.w ⌊loc.x⌋ ≤ (img.w : ℤ) - 1) ∧
    (0 ≤ sanitize1 img.w ⌊loc.x⌋ ∧ sanitize1 img.w ⌊loc.x⌋ ≤ (img.w : ℤ) - 1) ∧
    (0 ≤ sanitize0 img.h ⌊loc.y⌋ ∧ sanitize0 img.h ⌊loc.y⌋ ≤ (img.h : ℤ) - 1) ∧
    (0 ≤ sanitize1 img.h ⌊loc.y⌋ ∧ sanitize1 img.h ⌊loc.y⌋ ≤ (img.h : ℤ) - 1) ∧
    sampleBilinear img ⟨(ix : ℝ), (iy : ℝ)⟩ k
      = img.px (sanitize0 img.h iy).toNat (sanitize0 img.w ix).toNat k :=
  ⟨⟨sanitize0_nonneg _ _, sanitize0_le _ _ hw⟩,
   ⟨sanitize1_nonneg _ _ hw, sanitize1_le _ _⟩,
   ⟨sanitize0_nonneg _ _, sanitize0_le _ _ hh⟩,
   ⟨sanitize1_nonneg _ _ hh, sanitize1_le _ _⟩,
   sampleBilinear_int img hval hw hh ix iy k hk⟩

/-- Witness for C5's amended claim on the 2x2 image at the far coordinate
(-1000, 1000). -/
theorem sampleBilinear_reads_in_bounds_witness :
    (0 ≤ sanitize0 demoImg2x2.w ⌊(-1000 : ℝ)⌋ ∧
      sanitize0 demoImg2x2.w ⌊(-1000 : ℝ)⌋ ≤ (demoImg2x2.w : ℤ) - 1) ∧
    (0 ≤ sanitize1 demoImg2x2.w ⌊(-1000 : ℝ)⌋ ∧
      sanitize1 demoImg2x2.w ⌊(-1000 : ℝ)⌋ ≤ (demoImg2x2.w : ℤ) - 1) ∧
    (0 ≤ sanitize0 demoImg2x2.h ⌊(1000 : ℝ)⌋ ∧
      sanitize0 demoImg2x2.h ⌊(1000 : ℝ)⌋ ≤ (demoImg2x2.h : ℤ) - 1) ∧
    (0 ≤ sanitize1 demoImg2x2.h ⌊(1000 : ℝ)⌋ ∧
      sanitize1 demoImg2x2.h ⌊(1000 : ℝ)⌋ ≤ (demoImg2x2.h : ℤ) - 1) ∧
    sampleBilinear demoImg2x2 ⟨((-1000 : ℤ) : ℝ), ((1000 : ℤ) : ℝ)⟩ 0
      = demoImg2x2.px (sanitize0 demoImg2x2.h 1000).toNat
          (sanitize0 demoImg2x2.w (-1000)).toNat 0 := by
  have h := sampleBilinear_reads_in_bounds demoImg2x2 demoImg2x2_valid
    (by norm_num [demoImg2x2]) (by norm_num [demoImg2x2])
    ⟨-1000, 1000⟩ (-1000) 1000 0 (by norm_num [demoImg2x2])
  simpa using h

lemma clamp_floor_eq (x : ℝ) (n : ℤ) (h0 : 0 ≤ n) (h255 : n ≤ 255)
    (hl : (n : ℝ) ≤ x) (hu : x < n + 1) : min 255 (max 0 ⌊x⌋) = n := by
  have hfl : ⌊x⌋ = n := Int.floor_eq_iff.mpr ⟨hl, hu⟩
  rw [hfl, max_eq_right h0, min_eq_right h255]

/-- C5 counterexample: at the far fractional coordinate (-1000.5, 0.5) on
the 2x2 image whose column 0 stores 0 and column 1 stores 200, the sample
is 100 — not the stored byte of any pixel of the image, in particular not
a clamped-border color. -/
theorem sampleBilinear_far_fractional_not_border :
    sampleBilinear demoImg2x2 ⟨-(2001 / 2 : ℝ), 1 / 2⟩ 0 = some 100 ∧
    ∀ r c, r < 2 → c < 2 → demoImg2x2.px r c 0 ≠ some 100 := by
  constructor
  · have hfx : ⌊(-(2001 / 2 : ℝ))⌋ = -1001 := by
      rw [Int.floor_eq_iff]
      norm_num
    have hfy : ⌊(1 / 2 : ℝ)⌋ = 0 := by
      rw [Int.floor_eq_iff]
      norm_num
    have hs0w : sanitize0 demoImg2x2.w (-1001) = 0 := by decide
    have hs1w : sanitize1 demoImg2x2.w (-1001) = 1 := by decide
    have hs0h : sanitize0 demoImg2x2.h 0 = 0 := by decide
    have hs1h : sanitize1 demoImg2x2.h 0 = 1 := by decide
    simp only [sampleBilinear, hfx, hfy, hs0w, hs1w, hs0h, hs1h,
      Int.toNat_zero, Int.toNat_one]
    rw [if_pos (show (0 : ℕ) < demoImg2x2.nc by norm_num [demoImg2x2])]
    rw [show demoImg2x2.px 0 0 0 = some 0 from rfl,
        show demoImg2x2.px 0 1 0 = some 200 from rfl,
        show demoImg2x2.px 1 0 0 = some 0 from rfl,
        show demoImg2x2.px 1 1 0 = some 200 from rfl]
    simp only [Option.some_bind]
    exact congrArg some (clamp_floor_eq _ 100 (by norm_num) (by norm_num)
      (by push_cast; norm_num) (by push_cast; norm_num))
  · intro r c hr hc
    interval_cases r <;> interval_cases c <;> simp [demoImg2x2]

/-- C7: each output byte of blend is the floor of the convex combination
pixel1 * t + pixel2 * (1 - t), and for byte-valued inputs and t in [0,1]
that floor always lies in [0, 255], so the unclamped narrowing in the code
never over- or underflows. -/
theorem blend_byte_convex (img1 img2 : Image) (t : ℝ) (r c k : ℕ) (x y : ℤ)
    (hr : r < img1.h) (hc : c < img1.w) (hk : k < img1.nc)
    (h1 : img1.px r c k = some x) (h2 : img2.px r c k = some y)
    (hx0 : 0 ≤ x) (hx1 : x ≤ 255) (hy0 : 0 ≤ y) (hy1 : y ≤ 255)
    (ht0 : 0 ≤ t) (ht1 : t ≤ 1) :
    (blendImages img1 img2 t).px r c k = some ⌊(x : ℝ) * t + (y : ℝ) * (1 - t)⌋ ∧
    0 ≤ ⌊(x : ℝ) * t + (y : ℝ) * (1 - t)⌋ ∧
    ⌊(x : ℝ) * t + (y : ℝ) * (1 - t)⌋ ≤ 255 := by
  have hxr0 : (0 : ℝ) ≤ (x : ℝ) := by exact_mod_cast hx0
  have hxr1 : (x : ℝ) ≤ 255 := by exact_mod_cast hx1
  have hyr0 : (0 : ℝ) ≤ (y : ℝ) := by exact_mod_cast hy0
  have hyr1 : (y : ℝ) ≤ 255 := by exact_mod_cast hy1
  have ht1' : (0 : ℝ) ≤ 1 - t := by linarith
  have hlow : (0 : ℝ) ≤ (x : ℝ) * t + (y : ℝ) * (1 - t) := by
    have hx := mul_nonneg hxr0 ht0
    have hy := mul_nonneg hyr0 ht1'
    linarith
  have hhigh : (x : ℝ) * t + (y : ℝ) * (1 - t) ≤ 255 := by
    have hx := mul_le_mul_of_nonneg_right hxr1 ht0
    have hy := mul_le_mul_of_nonneg_right hyr1 ht1'
    linarith
  refine ⟨?_, Int.floor_nonneg.mpr hlow, ?_⟩
  · simp only [blendImages]
    rw [if_pos ⟨hr, hc, hk⟩, h1, h2]
    simp only [Option.some_bind]
  · have h256 : ⌊(x : ℝ) * t + (y : ℝ) * (1 - t)⌋ < 256 := by
      apply Int.floor_lt.mpr
      push_cast
      linarith
    omega

/-- Witness for C7: blending the 1x1 images with bytes 7 and 9 at t = 1/2
yields floor(7 * 1/2 + 9 * 1/2) = 8. -/
theorem blend_byte_convex_witness :
    (blendImages demoImg7 demoImg9 (1 / 2)).px 0 0 0
      = some ⌊((7 : ℤ) : ℝ) * (1 / 2) + ((9 : ℤ) : ℝ) * (1 - 1 / 2)⌋ ∧
    0 ≤ ⌊((7 : ℤ) : ℝ) * (1 / 2) + ((9 : ℤ) : ℝ) * (1 - 1 / 2)⌋ ∧
    ⌊((7 : ℤ) : ℝ) * (1 / 2) + ((9 : ℤ) : ℝ) * (1 - 1 / 2)⌋ ≤ 255 :=
  blend_byte_convex demoImg7 demoImg9 (1 / 2) 0 0 0 7 9
    (by norm_num [demoImg7]) (by norm_num [demoImg7]) (by norm_num [demoImg7])
    (by norm_num [demoImg7]) (by norm_num [demoImg9])
    (by norm_num) (by norm_num) (by norm_num) (by norm_num) (by norm_num) (by norm_num)

lemma lerp_self (L : LineSegment) (t : ℝ) : L.lerp L t = L := by
  obtain ⟨⟨sx, sy⟩, ⟨ex, ey⟩⟩ := L
  simp only [LineSegment.lerp, Vec2.smul, Vec2.add, LineSegment.mk.injEq, Vec2.mk.injEq]
  refine ⟨⟨by ring, by ring⟩, by ring, by ring⟩

/-- Decomposing a point over the direction/perpendicular basis of a
nondegenerate segment: start + u * direction + v * (perp / length)
recovers the point itself when u is its projection parameter and v its
signed line distance. -/
lemma interp_decomposition (L : LineSegment) (X : Vec2) (hL : L.length2 ≠ 0) :
    (L.start.add (Vec2.smul (((L.endpt.sub L.start).dot (X.sub L.start)) / L.length2)
        L.direction)).add
      (Vec2.smul (((X.sub L.start).dot L.perp) / L.length)
        ⟨L.perp.x / L.length, L.perp.y / L.length⟩) = X := by
  have hml : L.length * L.length = L.length2 := L.mul_self_length
  obtain ⟨⟨sx, sy⟩, ⟨ex, ey⟩⟩ := L
  obtain ⟨Xx, Xy⟩ := X
  simp only [LineSegment.direction, LineSegment.perp, LineSegment.length2, LineSegment.length,
    Vec2.sub, Vec2.add, Vec2.smul, Vec2.dot, Vec2.perpv, Vec2.length2,
    Vec2.mk.injEq] at hml hL ⊢
  constructor
  · rw [div_mul_div_comm, hml]
    field_simp
    ring
  · rw [div_mul_div_comm, hml]
    field_simp
    ring

lemma featureStep_self (L : LineSegment) (t a b p : ℝ) (X : Vec2)
    (hL : L.length2 ≠ 0) (ha : 0 < a) :
    ∃ w, featureStep t a b p X (L, L) = some (⟨0, 0⟩, w) ∧ 0 < w := by
  have hlen := L.length_ne_zero hL
  have hlpos := L.length_pos hL
  have hdist0 := L.segmentDistance_nonneg X
    (((L.endpt.sub L.start).dot (X.sub L.start)) / L.length2)
    (((X.sub L.start).dot L.perp) / L.length)
  have hden : a + L.segmentDistance X
      (((L.endpt.sub L.start).dot (X.sub L.start)) / L.length2)
      (((X.sub L.start).dot L.perp) / L.length) ≠ 0 :=
    ne_of_gt (by linarith)
  refine ⟨Real.rpow (Real.rpow L.length p
      / (a + L.segmentDistance X
          (((L.endpt.sub L.start).dot (X.sub L.start)) / L.length2)
          (((X.sub L.start).dot L.perp) / L.length))) b, ?_, ?_⟩
  · simp only [featureStep, lerp_self, LineSegment.lineParameter,
      LineSegment.signedLineDistance, fdiv, fdivV]
    rw [if_neg hL, if_neg hlen, if_neg hlen]
    simp only [Option.some_bind]
    rw [if_neg hden]
    simp only [Option.some_bind]
    rw [interp_decomposition L X hL]
    obtain ⟨Xx, Xy⟩ := X
    simp [Vec2.sub, Vec2.smul]
  · exact Real.rpow_pos_of_pos
      (div_pos (Real.rpow_pos_of_pos hlpos p) (by linarith)) b

lemma zip_self {α : Type} (S : List α) : S.zip S = S.map fun L => (L, L) := by
  induction S with
  | nil => rfl
  | cons L S ih => simp [List.zip_cons_cons, ih]

lemma foldl_self (t a b p : ℝ) (X : Vec2) (S : List LineSegment)
    (hdeg : ∀ L ∈ S, L.length2 ≠ 0) (ha : 0 < a) :
    ∀ c : ℝ, ∃ w, (List.foldlM (fun (acc : Vec2 × ℝ) sp =>
        (featureStep t a b p X sp).map fun r => (acc.1.add r.1, acc.2 + r.2))
      ((⟨⟨0, 0⟩, c⟩ : Vec2 × ℝ)) (S.map fun L => (L, L))) = some (⟨0, 0⟩, c + w) ∧
      0 ≤ w ∧ (S ≠ [] → 0 < w) := by
  induction S with
  | nil =>
    intro c
    exact ⟨0, by simp, le_refl 0, by simp⟩
  | cons L S ih =>
    intro c
    obtain ⟨wL, hstep, hwL⟩ := featureStep_self L t a b p X (hdeg L (by simp)) ha
    obtain ⟨w', hfold, hw0', _⟩ := ih (fun M hM => hdeg M (by simp [hM])) (c + wL)
    refine ⟨wL + w', ?_, by linarith, fun _ => by linarith⟩
    rw [List.map_cons, List.foldlM_cons, hstep]
    simp only [Option.map_some', Option.bind_eq_bind, Option.some_bind]
    have hzero : (Vec2.mk 0 0).add ⟨0, 0⟩ = (⟨0, 0⟩ : Vec2) := by
      simp [Vec2.add]
    rw [hzero, hfold, add_assoc]

lemma distortPixelLoc_self (S : List LineSegment) (t a b p : ℝ) (X : Vec2)
    (hS : S ≠ []) (hdeg : ∀ L ∈ S, L.length2 ≠ 0) (ha : 0 < a) :
    distortPixelLoc (S.zip S) t a b p X = some X := by
  obtain ⟨w, hfold, hw0, hwpos⟩ := foldl_self t a b p X S hdeg ha 0
  have hw : (0 : ℝ) + w ≠ 0 := by
    have := hwpos hS
    linarith
  simp only [distortPixelLoc, zip_self, hfold, Option.some_bind, fdivV]
  rw [if_neg hw]
  simp only [Option.some_bind]
  obtain ⟨Xx, Xy⟩ := X
  simp [Vec2.add]

/-- C6 amended: distorting with a nonempty array of nondegenerate segments
used as both start and end features, with a > 0, is the identity on every
byte-valued image: the interpolated segment equals the original, the
decomposition maps every pixel back to itself, the total weight is
positive, and the sampler at integer in-range coordinates returns the
stored pixel. -/
theorem distort_equal_segments_identity (img : Image) (S : List LineSegment)
    (t a b p : ℝ) (hS : S ≠ []) (hdeg : ∀ L ∈ S, L.length2 ≠ 0) (ha : 0 < a)
    (hval : img.Valid) :
    (distortImage img S S t a b p).EqOn img := by
  refine ⟨rfl, rfl, rfl, ?_⟩
  intro r c k hr hc hk
  have hr' : r < img.h := hr
  have hc' : c < img.w := hc
  have hk' : k < img.nc := hk
  have hw : 1 ≤ img.w := by omega
  have hh : 1 ≤ img.h := by omega
  show (distortImage img S S t a b p).px r c k = img.px r c k
  simp only [distortImage]
  rw [if_pos ⟨hr', hc', hk'⟩, distortPixelLoc_self S t a b p ⟨(c : ℝ), (r : ℝ)⟩ hS hdeg ha]
  simp only [Option.some_bind]
  have h := sampleBilinear_int img hval hw hh (c : ℤ) (r : ℤ) k hk'
  rw [sanitize0_eq_self img.w (c : ℤ) (by omega) (by exact_mod_cast hc'),
      sanitize0_eq_self img.h (r : ℤ) (by omega) (by exact_mod_cast hr'),
      Int.toNat_natCast, Int.toNat_natCast] at h
  rw [show ((c : ℤ) : ℝ) = (c : ℝ) by push_cast; rfl,
      show ((r : ℤ) : ℝ) = (r : ℝ) by push_cast; rfl] at h
  exact h

/-- Witness for C6's amended claim: the unit segment used as both feature
arrays leaves the 1x1 image with byte 7 unchanged. -/
theorem distort_equal_segments_identity_witness :
    (distortImage demoImg7 [csStart] [csStart] (1 / 3) (1 / 2) 1 (1 / 5)).EqOn demoImg7 :=
  distort_equal_segments_identity demoImg7 [csStart] (1 / 3) (1 / 2) 1 (1 / 5)
    (by simp)
    (by intro L hL
        rw [List.mem_singleton] at hL
        subst hL
        norm_num [csStart, LineSegment.length2, Vec2.sub, Vec2.length2])
    (by norm_num) demoImg7_valid

end ImageMorph
